import Mathlib

/-!
Verification of the memchart snapshot engine (`memchart.go`).

Go strings are modelled as `List Char` (the inputs of interest are ASCII, so
bytes and characters coincide).  Go maps are modelled as association lists
with first-match lookup; a map assignment replaces the first binding of the
key in place, or appends a fresh binding at the end.  Functions of the source
that can panic (out-of-range indexing, assignment into a `nil` inner map) are
modelled as `Option`-returning functions, with `none` for the panic.
-/

set_option autoImplicit false

namespace Memchart

/-- A Go string, as a list of characters. -/
abbrev GoStr := List Char

/-- Convert a Lean string literal to the `GoStr` model. -/
def gs (s : String) : GoStr := s.data

/-- Whitespace in the sense of `strings.Fields` (ASCII range of
`unicode.IsSpace`; the non-ASCII Unicode space characters never occur in
the inputs modelled here). -/
def isSpace (c : Char) : Bool :=
  c == ' ' || c == '\t' || c == '\n' || c == '\x0b' || c == '\x0c' || c == '\r'

/-- Accumulator-style worker for `fields`: `w` is the current word reversed. -/
def fieldsAux : GoStr → GoStr → List GoStr
  | w, [] => if w = [] then [] else [w.reverse]
  | w, c :: cs =>
    if isSpace c then
      if w = [] then fieldsAux [] cs else w.reverse :: fieldsAux [] cs
    else
      fieldsAux (c :: w) cs

/-- Model of `strings.Fields`: split around runs of whitespace. -/
def fields (s : GoStr) : List GoStr := fieldsAux [] s

/-- Model of `strings.Split(s, "\n")`: a non-newline character is prepended
to the first chunk of the splitting of the rest (`splitNL` never returns an
empty list, so `headD`/`tail` express exactly the cons case). -/
def splitNL : GoStr → List GoStr
  | [] => [[]]
  | c :: cs =>
    if c = '\n' then [] :: splitNL cs
    else (c :: (splitNL cs).headD []) :: (splitNL cs).tail

/-- Join lines with newline separators (inverse of `splitNL` on
newline-free lines); used to present inputs as line lists. -/
def joinNL : List GoStr → GoStr
  | [] => []
  | l :: ls =>
    match ls with
    | [] => l
    | _ :: _ => l ++ '\n' :: joinNL ls

/-- Model of `strings.Split(s, "-")[0]`: the text before the first dash. -/
def upToDash (s : GoStr) : GoStr := s.takeWhile (fun c => c ≠ '-')

/-- Model of `strings.TrimRight(s, ":")`: drop all trailing colons. -/
def trimColon (s : GoStr) : GoStr := (s.reverse.dropWhile (fun c => c = ':')).reverse

/-- ASCII lower-casing of one character (`strings.ToLower`; the labels in
mapping-accounting text are ASCII). -/
def lowerChar (c : Char) : Char :=
  if 'A' ≤ c ∧ c ≤ 'Z' then Char.ofNat (c.toNat + 32) else c

/-- Model of `strings.ToLower`. -/
def toLowerStr (s : GoStr) : GoStr := s.map lowerChar

/-- Digit-run evaluator for `strconv.Atoi`: consumes decimal digits into an
accumulator, failing on any non-digit. -/
def digitsValGo : GoStr → Nat → Option Nat
  | [], acc => some acc
  | c :: cs, acc =>
    if c.isDigit then digitsValGo cs (10 * acc + (c.toNat - 48)) else none

/-- Syntax-checking core of `strconv.Atoi`: an optional sign followed by a
non-empty run of decimal digits; `none` on any malformed input, the exact
mathematical value on well-formed input.  The 64-bit range clamp that
`strconv.Atoi` applies on top of this is performed in `atoi`. -/
def atoiCore : GoStr → Option Int
  | [] => none
  | '+' :: ds => if ds = [] then none else (digitsValGo ds 0).map (fun n => (n : Int))
  | '-' :: ds => if ds = [] then none else (digitsValGo ds 0).map (fun n => -(n : Int))
  | ds => (digitsValGo ds 0).map (fun n => (n : Int))

/-- The 64-bit range clamp of `strconv.Atoi` (via `ParseInt` with the
platform `int` size): a syntactically valid value outside the `int64`
range is clamped to the nearest bound and returned together with
`ErrRange`. -/
def clampInt64 (v : Int) : Int :=
  if v > 2 ^ 63 - 1 then 2 ^ 63 - 1 else if v < -(2 ^ 63) then -(2 ^ 63) else v

/-- The value the source actually stores
(`pm[start][n], _ = strconv.Atoi(f[1])`): the error is discarded, so a
syntactically malformed value becomes `0` and an out-of-range value
becomes the clamped bound. -/
def atoi (s : GoStr) : Int :=
  match atoiCore s with
  | none => 0
  | some v => clampInt64 v

section AssocMap

variable {β : Type}

/-- First-match lookup in an association list (a Go map read; keys are
unique in any list built by `setKey`/`delKey` from `[]`). -/
def lookupKey : List (GoStr × β) → GoStr → Option β
  | [], _ => none
  | (k, v) :: rest, q => if k = q then some v else lookupKey rest q

/-- Go map assignment `m[k] = v`: replace the binding of `k` in place, or
append a fresh binding at the end. -/
def setKey : List (GoStr × β) → GoStr → β → List (GoStr × β)
  | [], k, v => [(k, v)]
  | (k', v') :: rest, k, v =>
    if k' = k then (k, v) :: rest else (k', v') :: setKey rest k v

/-- Go `delete(m, k)`: remove the binding(s) of `k`. -/
def delKey : List (GoStr × β) → GoStr → List (GoStr × β)
  | [], _ => []
  | (k', v') :: rest, k =>
    if k' = k then delKey rest k else (k', v') :: delKey rest k

/-- A Go map read with the zero value as default (`m[k]` in rvalue
position). -/
def getD (m : List (GoStr × β)) (k : GoStr) (d : β) : β := (lookupKey m k).getD d

/-- The keys of an association list. -/
def keys (m : List (GoStr × β)) : List GoStr := m.map Prod.fst

end AssocMap

/-- The unit-suffix token `"kB"` distinguishing counter lines from header
lines in `getsmaps`. -/
def kBs : GoStr := gs "kB"

/-- One process's mappings keyed on start address
(`type pmaps map[string]map[string]int`), as nested association lists. -/
abbrev Counters := List (GoStr × Int)

/-- The outer map of `pmaps`: start address to counter set. -/
abbrev Pmaps := List (GoStr × Counters)

/-- The line-scanning loop of `getsmaps` (lines 70–82 of the source).
State: accumulated map `pm` and current start address `start`.  An empty
line breaks the loop.  `none` models the two panics of the source: the
`f[len(f)-1]` / `f[1]` index when a line has too few fields, and the
assignment `pm[start][n] = …` when `start` has no entry in `pm` (a write
into a `nil` inner map). -/
def getsmapsLoop : List GoStr → Pmaps → GoStr → Option Pmaps
  | [], pm, _ => some pm
  | line :: rest, pm, start =>
    if line = [] then some pm
    else
      match (fields line).getLast? with
      | none => none
      | some lastField =>
        if lastField ≠ kBs then
          getsmapsLoop rest (setKey pm (upToDash ((fields line).headD [])) [])
            (upToDash ((fields line).headD []))
        else
          match fields line with
          | f0 :: f1 :: _ =>
            match lookupKey pm start with
            | some inner =>
              getsmapsLoop rest
                (setKey pm start (setKey inner (toLowerStr (trimColon f0)) (atoi f1)))
                start
            | none => none
          | _ => none

/-- Model of `getsmaps`: split on newlines and run the scanning loop from
the empty map with empty current start address. -/
def getsmaps (s : GoStr) : Option Pmaps := getsmapsLoop (splitNL s) [] []

/-- Two's-complement 64-bit normalisation: the value of a Go `int`
holding an integer congruent to `x` modulo `2^64`. -/
def wrap64 (x : Int) : Int := (x + 2 ^ 63) % 2 ^ 64 - 2 ^ 63

/-- Go 64-bit `int` addition: wraps around on overflow (two's
complement). -/
def addInt64 (a b : Int) : Int := wrap64 (a + b)

/-- The summation loop of `memsizes` (lines 89–94), with every `+=` and
the inner `private_clean + private_dirty` addition performed as 64-bit
wrap-around `int` addition.  The Go `range` over the map visits entries
in unspecified order; wrap-around addition is commutative and
associative, so accumulating in list order is faithful. -/
def sizesOf (pm : Pmaps) : Int × Int × Int :=
  pm.foldl
    (fun acc e =>
      (addInt64 acc.1 (getD e.2 (gs "rss") 0),
       addInt64 acc.2.1 (getD e.2 (gs "pss") 0),
       addInt64 acc.2.2
         (addInt64 (getD e.2 (gs "private_clean") 0) (getD e.2 (gs "private_dirty") 0))))
    (0, 0, 0)

/-- Model of `memsizes`: aggregate the parsed mappings; `none` when
`getsmaps` panics. -/
def memsizes (s : GoStr) : Option (Int × Int × Int) := (getsmaps s).map sizesOf

/-- Model of `strings.Index(s, string(c))`: index of the first occurrence
of `c`, or `-1` when absent. -/
def goIndexOf (s : GoStr) (c : Char) : Int :=
  match s.findIdx? (fun x => x = c) with
  | some n => (n : Int)
  | none => -1

/-- Go slice expression `s[i:j]`: defined when `0 ≤ i ≤ j ≤ len(s)`,
a panic (`none`) otherwise. -/
def goSlice (s : GoStr) (i j : Int) : Option GoStr :=
  if 0 ≤ i ∧ i ≤ j ∧ j ≤ (s.length : Int) then
    some ((s.take j.toNat).drop i.toNat)
  else
    none

/-- The name extraction of `snapshotPid` (lines 49–50):
`i, j := strings.Index(stat, "("), strings.Index(stat, ")")` followed by
`stat[i+1 : j]`. -/
def extractName (stat : GoStr) : Option GoStr :=
  goSlice stat (goIndexOf stat '(' + 1) (goIndexOf stat ')')

/-- The substring strictly between the first `(` and the last `)`
of a line, as the specification describes the name extraction. -/
def betweenFirstLast (s : GoStr) : GoStr :=
  (s.take (s.length - 1 - s.reverse.findIdx (fun c => c = ')'))).drop
    (s.findIdx (fun c => c = '(') + 1)

/-- Data read from /proc for one pid (`type piddata struct`); `cmdline`
is the raw command-line bytes, the remaining fields are the exported
name and aggregated sizes. -/
structure piddata where
  cmdline : GoStr
  name : GoStr
  rss : Int
  pss : Int
  uss : Int
  deriving DecidableEq

/-- Model of `isKernelProc`: `len(pd.cmdline) == 0`. -/
def isKernelProc (pd : piddata) : Bool := pd.cmdline.length == 0

/-- The snapshot table `allpids map[string]*piddata`, as an association
list from pid to record. -/
abbrev Table := List (GoStr × piddata)

/-- Outcome of one `snapshotPid` call as observed by `snapshotPids`:
success with a record, an error for which `os.IsNotExist` holds, or any
other error. -/
inductive ProbeResult where
  | ok : piddata → ProbeResult
  | notExist : ProbeResult
  | otherError : ProbeResult
  deriving DecidableEq

/-- The body of the `snapshotPids` loop for one pid (lines 157–166):
insert/update on success unless the record is a kernel process, delete on
a not-exist error, leave the table alone on any other error. -/
def snapshotPidStep (probe : GoStr → ProbeResult) (tbl : Table) (pid : GoStr) : Table :=
  match probe pid with
  | ProbeResult.ok pd => if isKernelProc pd then tbl else setKey tbl pid pd
  | ProbeResult.notExist => delKey tbl pid
  | ProbeResult.otherError => tbl

/-- Model of `snapshotPids`: fold the per-pid step over the probed pids. -/
def snapshotPids (probe : GoStr → ProbeResult) (pids : List GoStr) (tbl : Table) : Table :=
  pids.foldl (snapshotPidStep probe) tbl

/-- Model of `strconv.Itoa`. -/
def itoa (n : Int) : GoStr :=
  if n < 0 then '-' :: Nat.toDigits 10 (-n).toNat else Nat.toDigits 10 n.toNat

/-- Model of `makeCSV` (lines 116–129): one row per table entry, columns
pid, name, RSS, USS, PSS.  The Go `range` order over the map is
unspecified; the table's list order stands in for it. -/
def makeCSV (tbl : Table) : List (List GoStr) :=
  tbl.map (fun pe => [pe.1, pe.2.name, itoa pe.2.rss, itoa pe.2.uss, itoa pe.2.pss])

/-- Model of `printCSV` (lines 204–208): the header line written by
`Fprintln` and then the rows handed to `csv.WriteAll` (the comma/newline
serialization of the rows is Go library code, modelled as the row list). -/
def printCSVout (tbl : Table) : GoStr × List (List GoStr) :=
  (gs "pid,name,rss,uss,pss", makeCSV tbl)

/-! Specification-side view of a mapping-accounting text as a list of
blocks, following §4.1 of the spec: each block is a header line followed
by its counter lines. -/

/-- A header line per the source test: non-empty field list whose last
field is not the unit suffix `kB`. -/
def isHeaderLine (l : GoStr) : Prop :=
  fields l ≠ [] ∧ (fields l).getLast? ≠ some kBs

instance (l : GoStr) : Decidable (isHeaderLine l) := by
  unfold isHeaderLine; infer_instance

/-- A counter line per the source test: last field is `kB`, and at least
two fields (label and value) so that `f[1]` is in range. -/
def isCounterLine (l : GoStr) : Prop :=
  2 ≤ (fields l).length ∧ (fields l).getLast? = some kBs

instance (l : GoStr) : Decidable (isCounterLine l) := by
  unfold isCounterLine; infer_instance

/-- The start address of a header line: the text of its first field
before the first dash. -/
def addrOf (l : GoStr) : GoStr := upToDash ((fields l).headD [])

/-- The counter name of a counter line: first field, trailing colon
stripped, lower-cased. -/
def labelOf (l : GoStr) : GoStr := toLowerStr (trimColon ((fields l).headD []))

/-- The counter value of a counter line: its second field through
`strconv.Atoi` with errors coerced to `0`. -/
def valOf (l : GoStr) : Int := atoi ((fields l).getD 1 [])

/-- A block: its header line and its counter lines. -/
abbrev Block := GoStr × List GoStr

/-- The lines of one block: header first, then the counter lines. -/
def blockLines (b : Block) : List GoStr := b.1 :: b.2

/-- Render a block list as the mapping-accounting text it describes. -/
def renderBlocks (bs : List Block) : GoStr := joinNL ((bs.map blockLines).flatten)

/-- The counters of a block read off the text directly: one `(label,
value)` pair per counter line, in line order. -/
def specCounters (b : Block) : Counters := b.2.map (fun c => (labelOf c, valOf c))

/-- The value of one named counter of a block; a missing counter
contributes `0`. -/
def specVal (b : Block) (n : GoStr) : Int := getD (specCounters b) n 0

/-- Well-formed block list: every block has a genuine header line and
genuine counter lines, none containing an embedded newline; start
addresses are pairwise distinct across blocks; counter labels are
pairwise distinct within each block. -/
def WFblocks (bs : List Block) : Prop :=
  (∀ b ∈ bs, isHeaderLine b.1 ∧ '\n' ∉ b.1 ∧ ∀ c ∈ b.2, isCounterLine c ∧ '\n' ∉ c)
  ∧ (bs.map (fun b => addrOf b.1)).Nodup
  ∧ ∀ b ∈ bs, (b.2.map labelOf).Nodup

instance (bs : List Block) : Decidable (WFblocks bs) := by
  unfold WFblocks; infer_instance

/-! Helper lemmas about the association-list map model. -/

section AssocMapLemmas

variable {β : Type}

theorem lookupKey_setKey_self (m : List (GoStr × β)) (k : GoStr) (v : β) :
    lookupKey (setKey m k v) k = some v := by
  induction m with
  | nil => simp [setKey, lookupKey]
  | cons e rest ih =>
    obtain ⟨a, w⟩ := e
    by_cases h : a = k
    · subst h; simp [setKey, lookupKey]
    · simp [setKey, lookupKey, h, ih]

theorem lookupKey_setKey_ne (m : List (GoStr × β)) (k q : GoStr) (v : β) (h : q ≠ k) :
    lookupKey (setKey m k v) q = lookupKey m q := by
  induction m with
  | nil => simp [setKey, lookupKey, Ne.symm h]
  | cons e rest ih =>
    obtain ⟨a, w⟩ := e
    by_cases ha : a = k
    · subst ha
      simp [setKey, lookupKey, Ne.symm h]
    · simp [setKey, lookupKey, ha, ih]

theorem getD_setKey_self (m : List (GoStr × β)) (k : GoStr) (v d : β) :
    getD (setKey m k v) k d = v := by
  simp [getD, lookupKey_setKey_self]

theorem getD_setKey_ne (m : List (GoStr × β)) (k q : GoStr) (v d : β) (h : q ≠ k) :
    getD (setKey m k v) q d = getD m q d := by
  simp [getD, lookupKey_setKey_ne m k q v h]

theorem setKey_of_lookup_none (m : List (GoStr × β)) (k : GoStr) (v : β)
    (h : lookupKey m k = none) : setKey m k v = m ++ [(k, v)] := by
  induction m with
  | nil => simp [setKey]
  | cons e rest ih =>
    obtain ⟨a, w⟩ := e
    by_cases ha : a = k
    · subst ha; simp [lookupKey] at h
    · simp [lookupKey, ha] at h
      simp [setKey, ha, ih h]

theorem lookupKey_append_of_none (m l : List (GoStr × β)) (k : GoStr)
    (h : lookupKey m k = none) : lookupKey (m ++ l) k = lookupKey l k := by
  induction m with
  | nil => simp
  | cons e rest ih =>
    obtain ⟨a, w⟩ := e
    by_cases ha : a = k
    · subst ha; simp [lookupKey] at h
    · simp [lookupKey, ha] at h ⊢
      exact ih h

theorem setKey_append_singleton (m : List (GoStr × β)) (k : GoStr) (v w : β)
    (h : lookupKey m k = none) : setKey (m ++ [(k, w)]) k v = m ++ [(k, v)] := by
  induction m with
  | nil => simp [setKey]
  | cons e rest ih =>
    obtain ⟨a, u⟩ := e
    by_cases ha : a = k
    · subst ha; simp [lookupKey] at h
    · simp [lookupKey, ha] at h
      simp [setKey, ha, ih h]

theorem lookupKey_append_singleton_ne (m : List (GoStr × β)) (k q : GoStr) (v : β)
    (h : lookupKey m q = none) (hne : k ≠ q) :
    lookupKey (m ++ [(k, v)]) q = none := by
  rw [lookupKey_append_of_none m _ q h]
  simp [lookupKey, hne]

theorem lookupKey_delKey_self (m : List (GoStr × β)) (k : GoStr) :
    lookupKey (delKey m k) k = none := by
  induction m with
  | nil => simp [delKey, lookupKey]
  | cons e rest ih =>
    obtain ⟨a, w⟩ := e
    by_cases ha : a = k <;> simp [delKey, lookupKey, ha, ih]

theorem lookupKey_delKey_ne (m : List (GoStr × β)) (k q : GoStr) (h : q ≠ k) :
    lookupKey (delKey m k) q = lookupKey m q := by
  induction m with
  | nil => simp [delKey]
  | cons e rest ih =>
    obtain ⟨a, w⟩ := e
    by_cases ha : a = k
    · subst ha
      simp [delKey, lookupKey, Ne.symm h, ih]
    · simp [delKey, lookupKey, ha, ih]

theorem mem_setKey (m : List (GoStr × β)) (k : GoStr) (v : β) (x : GoStr × β)
    (h : x ∈ setKey m k v) : x = (k, v) ∨ x ∈ m := by
  induction m with
  | nil => simp [setKey] at h; simp [h]
  | cons e rest ih =>
    obtain ⟨a, w⟩ := e
    by_cases ha : a = k
    · subst ha
      simp [setKey] at h
      rcases h with h | h
      · exact Or.inl h
      · exact Or.inr (List.mem_cons_of_mem _ h)
    · simp [setKey, ha] at h
      rcases h with h | h
      · exact Or.inr (by simp [h])
      · rcases ih h with h' | h'
        · exact Or.inl h'
        · exact Or.inr (List.mem_cons_of_mem _ h')

theorem mem_delKey (m : List (GoStr × β)) (k : GoStr) (x : GoStr × β)
    (h : x ∈ delKey m k) : x ∈ m := by
  induction m with
  | nil => simp [delKey] at h
  | cons e rest ih =>
    obtain ⟨a, w⟩ := e
    by_cases ha : a = k
    · subst ha
      simp [delKey] at h
      exact List.mem_cons_of_mem _ (ih h)
    · simp [delKey, ha] at h
      rcases h with h | h
      · simp [h]
      · exact List.mem_cons_of_mem _ (ih h)

end AssocMapLemmas

/-! Helper lemmas about line splitting and joining. -/

theorem splitNL_ne_nil (s : GoStr) : splitNL s ≠ [] := by
  induction s with
  | nil => simp [splitNL]
  | cons c cs ih =>
    by_cases hc : c = '\n' <;> simp [splitNL, hc]

theorem splitNL_no_newline (l : GoStr) (h : '\n' ∉ l) : splitNL l = [l] := by
  induction l with
  | nil => simp [splitNL]
  | cons c cs ih =>
    simp only [List.mem_cons, not_or] at h
    simp [splitNL, Ne.symm h.1, ih h.2]

theorem splitNL_append_newline (l s : GoStr) (h : '\n' ∉ l) :
    splitNL (l ++ '\n' :: s) = l :: splitNL s := by
  induction l with
  | nil => simp [splitNL]
  | cons c cs ih =>
    simp only [List.mem_cons, not_or] at h
    rw [List.cons_append]
    simp only [splitNL, Ne.symm h.1, if_false, ih h.2]
    simp

theorem joinNL_cons_cons (l l2 : GoStr) (rest : List GoStr) :
    joinNL (l :: l2 :: rest) = l ++ '\n' :: joinNL (l2 :: rest) := rfl

theorem splitNL_joinNL (ls : List GoStr) (hne : ls ≠ [])
    (h : ∀ l ∈ ls, '\n' ∉ l) : splitNL (joinNL ls) = ls := by
  induction ls with
  | nil => exact absurd rfl hne
  | cons l rest ih =>
    cases rest with
    | nil =>
      exact splitNL_no_newline l (h l (by simp))
    | cons l2 rest2 =>
      rw [joinNL_cons_cons, splitNL_append_newline l _ (h l (by simp)),
        ih (by simp) (fun x hx => h x (List.mem_cons_of_mem _ hx))]

/-! Helper lemmas about `fields`. -/

theorem fieldsAux_all_space (s : GoStr) (h : ∀ c ∈ s, isSpace c = true) :
    fieldsAux [] s = [] := by
  induction s with
  | nil => simp [fieldsAux]
  | cons c cs ih =>
    have hc : isSpace c = true := h c (by simp)
    simp only [fieldsAux, hc, if_true, if_pos rfl]
    exact ih (fun x hx => h x (List.mem_cons_of_mem _ hx))

theorem fields_all_space (s : GoStr) (h : ∀ c ∈ s, isSpace c = true) :
    fields s = [] := fieldsAux_all_space s h

theorem fields_nil : fields ([] : GoStr) = [] := rfl

theorem ne_nil_of_fields_ne_nil (l : GoStr) (h : fields l ≠ []) : l ≠ [] := by
  intro hl
  exact h (hl ▸ fields_nil)

/-! Step equations for the `getsmaps` scanning loop. -/

/-- The counters of one block as the loop builds them: successive map
assignments into the block's inner counter map. -/
def goCounters (b : Block) : Counters :=
  b.2.foldl (fun m c => setKey m (labelOf c) (valOf c)) []

/-- The lines before the first empty line: exactly the lines the loop
scans. -/
def preLines (ls : List GoStr) : List GoStr := ls.takeWhile (fun l => !l.isEmpty)

theorem getsmapsLoop_cons (line : GoStr) (rest : List GoStr) (pm : Pmaps) (st : GoStr) :
    getsmapsLoop (line :: rest) pm st =
      if line = [] then some pm
      else
        match (fields line).getLast? with
        | none => none
        | some lastField =>
          if lastField ≠ kBs then
            getsmapsLoop rest (setKey pm (upToDash ((fields line).headD [])) [])
              (upToDash ((fields line).headD []))
          else
            match fields line with
            | f0 :: f1 :: _ =>
              match lookupKey pm st with
              | some inner =>
                getsmapsLoop rest
                  (setKey pm st (setKey inner (toLowerStr (trimColon f0)) (atoi f1))) st
              | none => none
            | _ => none := rfl

theorem getsmapsLoop_header (line : GoStr) (rest : List GoStr) (pm : Pmaps) (st : GoStr)
    (hne : line ≠ []) (w : GoStr) (hw : (fields line).getLast? = some w) (hkb : w ≠ kBs) :
    getsmapsLoop (line :: rest) pm st
      = getsmapsLoop rest (setKey pm (upToDash ((fields line).headD [])) [])
          (upToDash ((fields line).headD [])) := by
  rw [getsmapsLoop_cons, if_neg hne, hw]
  simp [hkb]

theorem getsmapsLoop_counter (line : GoStr) (rest : List GoStr) (pm : Pmaps) (st : GoStr)
    (f0 f1 : GoStr) (fs : List GoStr) (inner : Counters)
    (hf : fields line = f0 :: f1 :: fs)
    (hw : (fields line).getLast? = some kBs)
    (hlk : lookupKey pm st = some inner) :
    getsmapsLoop (line :: rest) pm st
      = getsmapsLoop rest
          (setKey pm st (setKey inner (toLowerStr (trimColon f0)) (atoi f1))) st := by
  have hne : line ≠ [] := ne_nil_of_fields_ne_nil line (by rw [hf]; simp)
  rw [getsmapsLoop_cons, if_neg hne, hw]
  simp only [ne_eq, not_true_eq_false, if_false, ite_false]
  rw [hf]
  simp [hlk]

theorem getsmapsLoop_counters (cs : List GoStr) :
    ∀ (rest : List GoStr) (pm : Pmaps) (a : GoStr) (inner : Counters),
    (∀ c ∈ cs, isCounterLine c) →
    lookupKey pm a = none →
    getsmapsLoop (cs ++ rest) (pm ++ [(a, inner)]) a
      = getsmapsLoop rest
          (pm ++ [(a, cs.foldl (fun m c => setKey m (labelOf c) (valOf c)) inner)]) a := by
  induction cs with
  | nil => intro rest pm a inner _ _; simp
  | cons c cs ih =>
    intro rest pm a inner hcs hpm
    obtain ⟨hlen, hkb⟩ := hcs c (by simp)
    have hf : ∃ f0 f1 fs, fields c = f0 :: f1 :: fs := by
      cases hfc : fields c with
      | nil => rw [hfc] at hlen; simp at hlen
      | cons f0 t =>
        cases t with
        | nil => rw [hfc] at hlen; simp at hlen
        | cons f1 fs => exact ⟨f0, f1, fs, rfl⟩
    obtain ⟨f0, f1, fs, hf⟩ := hf
    have hlk : lookupKey (pm ++ [(a, inner)]) a = some inner := by
      rw [lookupKey_append_of_none _ _ _ hpm]; simp [lookupKey]
    rw [List.cons_append, getsmapsLoop_counter c _ _ _ f0 f1 fs inner hf hkb hlk,
      setKey_append_singleton _ _ _ _ hpm]
    have hlbl : toLowerStr (trimColon f0) = labelOf c := by rw [labelOf, hf]; rfl
    have hval : atoi f1 = valOf c := by rw [valOf, hf]; rfl
    rw [hlbl, hval, List.foldl_cons]
    exact ih rest pm a (setKey inner (labelOf c) (valOf c))
      (fun x hx => hcs x (List.mem_cons_of_mem _ hx)) hpm

theorem getsmapsLoop_blocks (bs : List Block) :
    ∀ (pm : Pmaps) (st : GoStr),
    (∀ b ∈ bs, isHeaderLine b.1 ∧ ∀ c ∈ b.2, isCounterLine c) →
    (∀ b ∈ bs, lookupKey pm (addrOf b.1) = none) →
    ((bs.map (fun b => addrOf b.1)).Nodup) →
    getsmapsLoop ((bs.map blockLines).flatten) pm st
      = some (pm ++ bs.map (fun b => (addrOf b.1, goCounters b))) := by
  induction bs with
  | nil => intro pm st _ _ _; simp [getsmapsLoop]
  | cons b bs ih =>
    intro pm st hwf hfresh hnd
    obtain ⟨⟨hfne, hlast⟩, hcnt⟩ := hwf b (by simp)
    have hne : b.1 ≠ [] := ne_nil_of_fields_ne_nil b.1 hfne
    obtain ⟨w, hw⟩ : ∃ w, (fields b.1).getLast? = some w := by
      cases hgl : (fields b.1).getLast? with
      | none => exact absurd (List.getLast?_eq_none_iff.mp hgl) hfne
      | some w => exact ⟨w, rfl⟩
    have hkb : w ≠ kBs := by
      intro hww
      exact hlast (hww ▸ hw)
    have ha : upToDash ((fields b.1).headD []) = addrOf b.1 := rfl
    have hbfresh : lookupKey pm (addrOf b.1) = none := hfresh b (by simp)
    rw [List.map_cons, List.flatten_cons, blockLines, List.cons_append,
      getsmapsLoop_header b.1 _ pm st hne w hw hkb, ha,
      setKey_of_lookup_none pm _ _ hbfresh,
      getsmapsLoop_counters b.2 _ pm (addrOf b.1) [] hcnt hbfresh]
    have hnd' := hnd
    rw [List.map_cons, List.nodup_cons] at hnd'
    have hstep := ih (pm ++ [(addrOf b.1, goCounters b)]) (addrOf b.1)
      (fun x hx => hwf x (List.mem_cons_of_mem _ hx))
      (fun x hx => by
        refine lookupKey_append_singleton_ne pm _ _ _ (hfresh x (List.mem_cons_of_mem _ hx)) ?_
        intro heq
        exact hnd'.1 (heq ▸ List.mem_map_of_mem (fun b => addrOf b.1) hx))
      hnd'.2
    rw [show List.foldl (fun m c => setKey m (labelOf c) (valOf c)) ([] : Counters) b.2
        = goCounters b from rfl,
      hstep]
    simp

theorem foldl_setKey_fresh (cs : List GoStr) :
    ∀ (m : Counters),
    (∀ c ∈ cs, lookupKey m (labelOf c) = none) →
    ((cs.map labelOf).Nodup) →
    cs.foldl (fun m c => setKey m (labelOf c) (valOf c)) m
      = m ++ cs.map (fun c => (labelOf c, valOf c)) := by
  induction cs with
  | nil => intro m _ _; simp
  | cons c cs ih =>
    intro m hfr hnd
    rw [List.map_cons, List.nodup_cons] at hnd
    rw [List.foldl_cons, setKey_of_lookup_none m _ _ (hfr c (by simp))]
    rw [ih (m ++ [(labelOf c, valOf c)])
      (fun x hx => by
        refine lookupKey_append_singleton_ne m _ _ _ (hfr x (List.mem_cons_of_mem _ hx)) ?_
        intro heq
        exact hnd.1 (heq ▸ List.mem_map_of_mem labelOf hx))
      hnd.2]
    simp

theorem goCounters_eq_specCounters (b : Block) (h : (b.2.map labelOf).Nodup) :
    goCounters b = specCounters b := by
  rw [goCounters, specCounters,
    foldl_setKey_fresh b.2 [] (fun c _ => rfl) h]
  simp

theorem memsizes_renderBlocks_parse (bs : List Block) (hwf : WFblocks bs) :
    memsizes (renderBlocks bs)
      = some (sizesOf (bs.map (fun b => (addrOf b.1, goCounters b)))) := by
  obtain ⟨hb, hnd, hlbl⟩ := hwf
  have hwf1 : ∀ b ∈ bs, isHeaderLine b.1 ∧ ∀ c ∈ b.2, isCounterLine c :=
    fun b hb' => ⟨(hb b hb').1, fun c hc => ((hb b hb').2.2 c hc).1⟩
  cases bs with
  | nil => rfl
  | cons b0 bs0 =>
    have hne : ((b0 :: bs0).map blockLines).flatten ≠ [] := by simp [blockLines]
    have hnl : ∀ l ∈ ((b0 :: bs0).map blockLines).flatten, '\n' ∉ l := by
      intro l hl
      rw [List.mem_flatten] at hl
      obtain ⟨ls, hls, hlmem⟩ := hl
      rw [List.mem_map] at hls
      obtain ⟨b, hbmem, rfl⟩ := hls
      rw [blockLines] at hlmem
      rcases List.mem_cons.mp hlmem with rfl | hl2
      · exact (hb b hbmem).2.1
      · exact ((hb b hbmem).2.2 l hl2).2
    have hsplit : splitNL (renderBlocks (b0 :: bs0)) = ((b0 :: bs0).map blockLines).flatten := by
      rw [renderBlocks]
      exact splitNL_joinNL _ hne hnl
    rw [memsizes, getsmaps, hsplit,
      getsmapsLoop_blocks (b0 :: bs0) [] [] hwf1 (fun b _ => rfl) hnd]
    rw [Option.map_some', List.nil_append]

/-- Membership of the signed 64-bit `int` range. -/
def InInt64 (x : Int) : Prop := -(2 ^ 63) ≤ x ∧ x < 2 ^ 63

instance (x : Int) : Decidable (InInt64 x) := by
  unfold InInt64; infer_instance

theorem wrap64_eq_self (x : Int) (h1 : -(2 ^ 63) ≤ x) (h2 : x < 2 ^ 63) : wrap64 x = x := by
  have h3 : 0 ≤ x + 2 ^ 63 := by linarith
  have h4 : x + 2 ^ 63 < 2 ^ 64 := by
    have h5 : (2 : Int) ^ 64 = 2 ^ 63 + 2 ^ 63 := by norm_num
    linarith
  rw [wrap64, Int.emod_eq_of_lt h3 h4]
  ring

theorem wrap64_add_left (a b : Int) : wrap64 (wrap64 a + b) = wrap64 (a + b) := by
  rw [wrap64, wrap64, wrap64]
  have h : (a + 2 ^ 63) % 2 ^ 64 - 2 ^ 63 + b + 2 ^ 63 = (a + 2 ^ 63) % 2 ^ 64 + b := by
    ring
  rw [h, Int.emod_add_emod]
  have h2 : a + 2 ^ 63 + b = a + b + 2 ^ 63 := by ring
  rw [h2]

theorem foldl_addInt64_wrap (vs : List Int) :
    ∀ acc : Int, vs.foldl addInt64 (wrap64 acc) = wrap64 (acc + vs.sum) := by
  induction vs with
  | nil => intro acc; simp
  | cons v vs ih =>
    intro acc
    rw [List.foldl_cons, addInt64, wrap64_add_left, List.sum_cons, ih (acc + v)]
    congr 1
    ring

theorem foldl_addInt64_zero (vs : List Int) : vs.foldl addInt64 0 = wrap64 vs.sum := by
  have h0 : (0 : Int) = wrap64 0 := by decide
  conv_lhs => rw [h0]
  rw [foldl_addInt64_wrap vs 0, zero_add]

theorem sizesOf_foldl_split (pm : Pmaps) :
    ∀ (a b c : Int),
    pm.foldl
      (fun acc e =>
        (addInt64 acc.1 (getD e.2 (gs "rss") 0),
         addInt64 acc.2.1 (getD e.2 (gs "pss") 0),
         addInt64 acc.2.2
           (addInt64 (getD e.2 (gs "private_clean") 0) (getD e.2 (gs "private_dirty") 0))))
      (a, b, c)
      = ((pm.map (fun e => getD e.2 (gs "rss") 0)).foldl addInt64 a,
         (pm.map (fun e => getD e.2 (gs "pss") 0)).foldl addInt64 b,
         (pm.map (fun e =>
           addInt64 (getD e.2 (gs "private_clean") 0)
             (getD e.2 (gs "private_dirty") 0))).foldl addInt64 c) := by
  induction pm with
  | nil => intro a b c; rfl
  | cons e pm ih =>
    intro a b c
    rw [List.foldl_cons, List.map_cons, List.map_cons, List.map_cons,
      List.foldl_cons, List.foldl_cons, List.foldl_cons]
    exact ih _ _ _

theorem sizesOf_eq_folds (pm : Pmaps) :
    sizesOf pm
      = ((pm.map (fun e => getD e.2 (gs "rss") 0)).foldl addInt64 0,
         (pm.map (fun e => getD e.2 (gs "pss") 0)).foldl addInt64 0,
         (pm.map (fun e =>
           addInt64 (getD e.2 (gs "private_clean") 0)
             (getD e.2 (gs "private_dirty") 0))).foldl addInt64 0) :=
  sizesOf_foldl_split pm 0 0 0

theorem sizesOf_blocks_eq_sums (bs : List Block)
    (hlbl : ∀ b ∈ bs, (b.2.map labelOf).Nodup)
    (hbu : ∀ b ∈ bs,
      InInt64 (specVal b (gs "private_clean") + specVal b (gs "private_dirty")))
    (hr : InInt64 ((bs.map (fun b => specVal b (gs "rss"))).sum))
    (hp : InInt64 ((bs.map (fun b => specVal b (gs "pss"))).sum))
    (hu : InInt64 ((bs.map (fun b =>
        specVal b (gs "private_clean") + specVal b (gs "private_dirty"))).sum)) :
    sizesOf (bs.map (fun b => (addrOf b.1, goCounters b)))
      = ((bs.map (fun b => specVal b (gs "rss"))).sum,
         (bs.map (fun b => specVal b (gs "pss"))).sum,
         (bs.map (fun b =>
           specVal b (gs "private_clean") + specVal b (gs "private_dirty"))).sum) := by
  have hc : ∀ (n : GoStr),
      (bs.map (fun b => (addrOf b.1, goCounters b))).map (fun e => getD e.2 n 0)
        = bs.map (fun b => specVal b n) := by
    intro n
    rw [List.map_map]
    refine List.map_congr_left (fun b hbm => ?_)
    simp only [Function.comp_apply]
    rw [goCounters_eq_specCounters b (hlbl b hbm), specVal]
  have hc2 :
      (bs.map (fun b => (addrOf b.1, goCounters b))).map
          (fun e =>
            addInt64 (getD e.2 (gs "private_clean") 0) (getD e.2 (gs "private_dirty") 0))
        = bs.map (fun b =>
            specVal b (gs "private_clean") + specVal b (gs "private_dirty")) := by
    rw [List.map_map]
    refine List.map_congr_left (fun b hbm => ?_)
    simp only [Function.comp_apply]
    rw [goCounters_eq_specCounters b (hlbl b hbm), addInt64,
      show getD (specCounters b) (gs "private_clean") 0
        = specVal b (gs "private_clean") from rfl,
      show getD (specCounters b) (gs "private_dirty") 0
        = specVal b (gs "private_dirty") from rfl]
    exact wrap64_eq_self _ (hbu b hbm).1 (hbu b hbm).2
  rw [sizesOf_eq_folds, hc (gs "rss"), hc (gs "pss"), hc2,
    foldl_addInt64_zero, foldl_addInt64_zero, foldl_addInt64_zero,
    wrap64_eq_self _ hr.1 hr.2, wrap64_eq_self _ hp.1 hp.2,
    wrap64_eq_self _ hu.1 hu.2]

/-! The claims. -/

/-- C1: For every well-formed mapping-accounting text — the rendering of a
list of mapping blocks with genuine header and counter lines, pairwise
distinct start addresses and per-block distinct counter labels, whose
per-block `private_clean + private_dirty` figures and whose three column
totals lie in the signed 64-bit `int` range (so the program's clamping
and wrap-around arithmetic computes the exact values) — the aggregator
`memsizes` returns exactly `(rss, pss, uss)` with `rss` the sum of the
`rss` counters over all blocks, `pss` the sum of the `pss` counters, and
`uss` the sum of `private_clean + private_dirty` over all blocks; a
missing counter contributes `0` (the `getD … 0` default in `specVal`),
the function returns (`some`, never the panic value `none`) on every
such input, and the result is independent of the order of the blocks. -/
theorem memsizes_sums_over_blocks :
    (∀ bs : List Block, WFblocks bs →
      (∀ b ∈ bs, InInt64 (specVal b (gs "private_clean") + specVal b (gs "private_dirty"))) →
      InInt64 ((bs.map (fun b => specVal b (gs "rss"))).sum) →
      InInt64 ((bs.map (fun b => specVal b (gs "pss"))).sum) →
      InInt64 ((bs.map (fun b =>
        specVal b (gs "private_clean") + specVal b (gs "private_dirty"))).sum) →
      memsizes (renderBlocks bs)
        = some ((bs.map (fun b => specVal b (gs "rss"))).sum,
                (bs.map (fun b => specVal b (gs "pss"))).sum,
                (bs.map (fun b =>
                  specVal b (gs "private_clean") + specVal b (gs "private_dirty"))).sum))
    ∧ ∀ bs1 bs2 : List Block, WFblocks bs1 → WFblocks bs2 →
        (∀ b ∈ bs1, InInt64 (specVal b (gs "private_clean") + specVal b (gs "private_dirty"))) →
        InInt64 ((bs1.map (fun b => specVal b (gs "rss"))).sum) →
        InInt64 ((bs1.map (fun b => specVal b (gs "pss"))).sum) →
        InInt64 ((bs1.map (fun b =>
          specVal b (gs "private_clean") + specVal b (gs "private_dirty"))).sum) →
        bs1.Perm bs2 →
        memsizes (renderBlocks bs1) = memsizes (renderBlocks bs2) := by
  constructor
  · intro bs hwf hbu hr hp hu
    rw [memsizes_renderBlocks_parse bs hwf,
      sizesOf_blocks_eq_sums bs hwf.2.2 hbu hr hp hu]
  · intro bs1 bs2 h1 h2 hbu hr hp hu hperm
    have hbu2 : ∀ b ∈ bs2,
        InInt64 (specVal b (gs "private_clean") + specVal b (gs "private_dirty")) :=
      fun b hb => hbu b (hperm.mem_iff.mpr hb)
    have hr2 : InInt64 ((bs2.map (fun b => specVal b (gs "rss"))).sum) := by
      rw [← (hperm.map (fun b => specVal b (gs "rss"))).sum_eq]
      exact hr
    have hp2 : InInt64 ((bs2.map (fun b => specVal b (gs "pss"))).sum) := by
      rw [← (hperm.map (fun b => specVal b (gs "pss"))).sum_eq]
      exact hp
    have hu2 : InInt64 ((bs2.map (fun b =>
        specVal b (gs "private_clean") + specVal b (gs "private_dirty"))).sum) := by
      rw [← (hperm.map (fun b =>
        specVal b (gs "private_clean") + specVal b (gs "private_dirty"))).sum_eq]
      exact hu
    rw [memsizes_renderBlocks_parse bs1 h1,
      sizesOf_blocks_eq_sums bs1 h1.2.2 hbu hr hp hu,
      memsizes_renderBlocks_parse bs2 h2,
      sizesOf_blocks_eq_sums bs2 h2.2.2 hbu2 hr2 hp2 hu2]
    refine congrArg some ?_
    simp only [Prod.mk.injEq]
    exact ⟨(hperm.map _).sum_eq, (hperm.map _).sum_eq, (hperm.map _).sum_eq⟩

/-- C1 witness: the theorem applied to a concrete two-block input (in both
orders). -/
theorem memsizes_sums_over_blocks_witness :
    memsizes (renderBlocks
        [(gs "08048000-08049000 r-xp /bin/cat", [gs "Rss: 4 kB", gs "Pss: 2 kB"]),
         (gs "08050000-08051000 r-xp /lib/ld.so", [gs "Rss: 3 kB", gs "Private_Dirty: 1 kB"])])
      = some (7, 2, 1)
    ∧ memsizes (renderBlocks
        [(gs "08048000-08049000 r-xp /bin/cat", [gs "Rss: 4 kB", gs "Pss: 2 kB"]),
         (gs "08050000-08051000 r-xp /lib/ld.so", [gs "Rss: 3 kB", gs "Private_Dirty: 1 kB"])])
      = memsizes (renderBlocks
        [(gs "08050000-08051000 r-xp /lib/ld.so", [gs "Rss: 3 kB", gs "Private_Dirty: 1 kB"]),
         (gs "08048000-08049000 r-xp /bin/cat", [gs "Rss: 4 kB", gs "Pss: 2 kB"])]) := by
  constructor
  · rw [memsizes_sums_over_blocks.1
      [(gs "08048000-08049000 r-xp /bin/cat", [gs "Rss: 4 kB", gs "Pss: 2 kB"]),
       (gs "08050000-08051000 r-xp /lib/ld.so", [gs "Rss: 3 kB", gs "Private_Dirty: 1 kB"])]
      (by decide) (by decide) (by decide) (by decide) (by decide)]
    decide
  · exact memsizes_sums_over_blocks.2 _ _ (by decide) (by decide)
      (by decide) (by decide) (by decide) (by decide)
      (List.Perm.swap _ _ _)

/-- C2 counterexample: the two-identical-blocks input does not yield
`(8, 4, 8)` — both blocks share the start address `08048000`, so the
second block's fresh counter map replaces the first in the address-keyed
`pmaps` map. -/
theorem two_identical_blocks_not_8_4_8 :
    memsizes (gs "08048000-08049000 r-xp ... /bin/cat\nRss: 4 kB\nPss: 2 kB\nPrivate_Clean: 0 kB\nPrivate_Dirty: 4 kB\n08048000-08049000 r-xp ... /bin/cat\nRss: 4 kB\nPss: 2 kB\nPrivate_Clean: 0 kB\nPrivate_Dirty: 4 kB")
      ≠ some (8, 4, 8) := by
  decide

/-- C2 amended: the two-identical-blocks input yields `(rss=4, pss=2,
uss=4)`, the figures of a single block, because the identical header
lines share one start-address key. -/
theorem two_identical_blocks_yield_4_2_4 :
    memsizes (gs "08048000-08049000 r-xp ... /bin/cat\nRss: 4 kB\nPss: 2 kB\nPrivate_Clean: 0 kB\nPrivate_Dirty: 4 kB\n08048000-08049000 r-xp ... /bin/cat\nRss: 4 kB\nPss: 2 kB\nPrivate_Clean: 0 kB\nPrivate_Dirty: 4 kB")
      = some (4, 2, 4) := by
  decide

theorem findIdx?_first_occurrence (c : Char) :
    ∀ (pre rest : GoStr) (i : Nat), (∀ x ∈ pre, x ≠ c) →
    List.findIdx? (fun x => x = c) (pre ++ c :: rest) i = some (i + pre.length) := by
  intro pre
  induction pre with
  | nil => intro rest i _; simp [List.findIdx?_cons]
  | cons a pre ih =>
    intro rest i h
    have ha : a ≠ c := h a (by simp)
    rw [List.cons_append, List.findIdx?_cons, if_neg (by simp [ha]),
      ih rest (i + 1) (fun x hx => h x (List.mem_cons_of_mem _ hx))]
    refine congrArg some ?_
    simp
    omega

theorem goIndexOf_first (pre rest : GoStr) (c : Char) (h : ∀ x ∈ pre, x ≠ c) :
    goIndexOf (pre ++ c :: rest) c = (pre.length : Int) := by
  rw [goIndexOf, findIdx?_first_occurrence c pre rest 0 h]
  simp

/-- C3 counterexample: the status line `1 (a)b) R` contains a `(` and a
`)`, but the code (`strings.Index` twice, so first `(` to first `)`)
extracts `a`, not the substring `a)b` strictly between the first `(` and
the last `)`. -/
theorem name_not_between_first_and_last_paren :
    ('(' ∈ gs "1 (a)b) R") ∧ (')' ∈ gs "1 (a)b) R")
    ∧ extractName (gs "1 (a)b) R") = some (gs "a")
    ∧ betweenFirstLast (gs "1 (a)b) R") = gs "a)b"
    ∧ extractName (gs "1 (a)b) R") ≠ some (betweenFirstLast (gs "1 (a)b) R")) := by
  decide

/-- C3 amended: for every status line in which a `)` occurs after the
first `(` (with no earlier `)` — otherwise the slice bounds are invalid
and the code panics), the extracted name is the substring strictly
between the first `(` and the first `)`, not the last `)`. -/
theorem name_between_first_parens (pre mid post : GoStr)
    (h1 : '(' ∉ pre) (h2 : ')' ∉ pre) (h3 : ')' ∉ mid) :
    extractName (pre ++ '(' :: (mid ++ ')' :: post)) = some mid := by
  have hi : goIndexOf (pre ++ '(' :: (mid ++ ')' :: post)) '(' = (pre.length : Int) :=
    goIndexOf_first pre _ '(' (fun x hx heq => h1 (heq ▸ hx))
  have hrw : pre ++ '(' :: (mid ++ ')' :: post) = (pre ++ '(' :: mid) ++ ')' :: post := by
    simp
  have hj : goIndexOf (pre ++ '(' :: (mid ++ ')' :: post)) ')'
      = ((pre.length + 1 + mid.length : Nat) : Int) := by
    rw [hrw, goIndexOf_first (pre ++ '(' :: mid) post ')'
      (fun x hx heq => by
        subst heq
        rcases List.mem_append.mp hx with hx | hx
        · exact h2 hx
        · rcases List.mem_cons.mp hx with hx | hx
          · exact absurd hx (by decide)
          · exact h3 hx)]
    refine congrArg Int.ofNat ?_
    simp
    omega
  rw [extractName, hi, hj, goSlice, if_pos ?_]
  · refine congrArg some ?_
    have htn1 : (((pre.length + 1 + mid.length : Nat) : Int)).toNat
        = pre.length + 1 + mid.length := Int.toNat_natCast _
    have htn2 : ((pre.length : Int) + 1).toNat = pre.length + 1 := by
      rw [show ((pre.length : Int) + 1) = ((pre.length + 1 : Nat) : Int) by push_cast; ring]
      exact Int.toNat_natCast _
    rw [htn1, htn2, hrw, List.take_left' (by simp; omega)]
    rw [show pre ++ '(' :: mid = (pre ++ ['(']) ++ mid by simp]
    rw [List.drop_left' (by simp)]
  · refine ⟨by omega, by omega, ?_⟩
    rw [hrw]
    simp
    omega

/-- C3 amended witness: the theorem applied to the concrete status line
`1 (cat) R`. -/
theorem name_between_first_parens_witness :
    extractName (gs "1 " ++ '(' :: (gs "cat" ++ ')' :: gs " R")) = some (gs "cat") :=
  name_between_first_parens (gs "1 ") (gs "cat") (gs " R")
    (by decide) (by decide) (by decide)

/-- C4: For a process id handled by the sampler loop body: when the probe
fails with a not-exist error, any record for that id is removed and no
other entry changes; when the probe fails for any other reason, the table
is left exactly as it was. -/
theorem snapshotPids_failure_handling
    (probe : GoStr → ProbeResult) (tbl : Table) (pid : GoStr) :
    (probe pid = ProbeResult.notExist →
      lookupKey (snapshotPidStep probe tbl pid) pid = none
      ∧ ∀ q, q ≠ pid → lookupKey (snapshotPidStep probe tbl pid) q = lookupKey tbl q)
    ∧ (probe pid = ProbeResult.otherError → snapshotPidStep probe tbl pid = tbl) := by
  constructor
  · intro h
    rw [snapshotPidStep, h]
    exact ⟨lookupKey_delKey_self tbl pid, fun q hq => lookupKey_delKey_ne tbl pid q hq⟩
  · intro h
    rw [snapshotPidStep, h]

/-- C4 witness: the theorem applied to a concrete probe and one-entry
table. -/
theorem snapshotPids_failure_handling_witness :
    lookupKey
        (snapshotPidStep (fun _ => ProbeResult.notExist)
          [(gs "7", ⟨gs "/bin/x", gs "x", 8, 5, 3⟩)] (gs "7")) (gs "7") = none
    ∧ lookupKey
        (snapshotPidStep (fun _ => ProbeResult.notExist)
          [(gs "7", ⟨gs "/bin/x", gs "x", 8, 5, 3⟩)] (gs "7")) (gs "9")
      = lookupKey [(gs "7", ⟨gs "/bin/x", gs "x", 8, 5, 3⟩)] (gs "9")
    ∧ snapshotPidStep (fun _ => ProbeResult.otherError)
        [(gs "7", ⟨gs "/bin/x", gs "x", 8, 5, 3⟩)] (gs "7")
      = [(gs "7", ⟨gs "/bin/x", gs "x", 8, 5, 3⟩)] := by
  refine ⟨?_, ?_, ?_⟩
  · exact ((snapshotPids_failure_handling (fun _ => ProbeResult.notExist)
      [(gs "7", ⟨gs "/bin/x", gs "x", 8, 5, 3⟩)] (gs "7")).1 rfl).1
  · exact ((snapshotPids_failure_handling (fun _ => ProbeResult.notExist)
      [(gs "7", ⟨gs "/bin/x", gs "x", 8, 5, 3⟩)] (gs "7")).1 rfl).2 (gs "9") (by decide)
  · exact (snapshotPids_failure_handling (fun _ => ProbeResult.otherError)
      [(gs "7", ⟨gs "/bin/x", gs "x", 8, 5, 3⟩)] (gs "7")).2 rfl

theorem snapshotPidStep_preserves_nonempty_cmdline
    (probe : GoStr → ProbeResult) (tbl : Table) (pid : GoStr)
    (h : ∀ pe ∈ tbl, (pe : GoStr × piddata).2.cmdline ≠ []) :
    ∀ pe ∈ snapshotPidStep probe tbl pid, (pe : GoStr × piddata).2.cmdline ≠ [] := by
  intro pe hpe
  cases hp : probe pid with
  | ok pd =>
    simp only [snapshotPidStep, hp] at hpe
    by_cases hk : isKernelProc pd = true
    · rw [if_pos hk] at hpe
      exact h pe hpe
    · rw [if_neg hk] at hpe
      rcases mem_setKey tbl pid pd pe hpe with hpe | hpe
      · rw [hpe]
        intro hc
        simp only [isKernelProc] at hk
        simp at hk
        exact hk hc
      · exact h pe hpe
  | notExist =>
    simp only [snapshotPidStep, hp] at hpe
    exact h pe (mem_delKey tbl pid pe hpe)
  | otherError =>
    simp only [snapshotPidStep, hp] at hpe
    exact h pe hpe

/-- C5: No record with empty command-line bytes is ever stored in the
snapshot table: the non-empty-cmdline invariant is preserved by every
sampler cycle (so, starting from the empty table of `main`, it holds in
every reachable state), and a successful probe whose record has empty
command-line bytes leaves the table unchanged — the record is skipped,
not inserted. -/
theorem table_never_stores_kernel_proc
    (probe : GoStr → ProbeResult) (pids : List GoStr) (tbl : Table) :
    ((∀ pe ∈ tbl, (pe : GoStr × piddata).2.cmdline ≠ []) →
      ∀ pe ∈ snapshotPids probe pids tbl, (pe : GoStr × piddata).2.cmdline ≠ [])
    ∧ ∀ pid pd, probe pid = ProbeResult.ok pd → pd.cmdline = [] →
        snapshotPidStep probe tbl pid = tbl := by
  constructor
  · intro h
    induction pids generalizing tbl with
    | nil => exact h
    | cons p ps ih =>
      exact ih (snapshotPidStep probe tbl p)
        (snapshotPidStep_preserves_nonempty_cmdline probe tbl p h)
  · intro pid pd hp hc
    simp only [snapshotPidStep, hp]
    rw [if_pos (by simp [isKernelProc, hc])]

/-- C5 witness: the theorem applied to a concrete probe that returns a
kernel-process record (empty command line) and one that does not. -/
theorem table_never_stores_kernel_proc_witness :
    (∀ pe ∈ snapshotPids (fun _ => ProbeResult.ok ⟨gs "", gs "kthreadd", 4, 4, 4⟩)
        [gs "2"] [], (pe : GoStr × piddata).2.cmdline ≠ [])
    ∧ snapshotPidStep (fun _ => ProbeResult.ok ⟨gs "", gs "kthreadd", 4, 4, 4⟩)
        [] (gs "2") = [] := by
  constructor
  · exact (table_never_stores_kernel_proc
      (fun _ => ProbeResult.ok ⟨gs "", gs "kthreadd", 4, 4, 4⟩) [gs "2"] []).1
      (by intro pe hpe; simp at hpe)
  · exact (table_never_stores_kernel_proc
      (fun _ => ProbeResult.ok ⟨gs "", gs "kthreadd", 4, 4, 4⟩) [] []).2
      (gs "2") ⟨gs "", gs "kthreadd", 4, 4, 4⟩ rfl rfl

theorem getsmapsLoop_stops_at_empty (pre : List GoStr) :
    ∀ (rest : List GoStr) (pm : Pmaps) (st : GoStr),
    getsmapsLoop (pre ++ ([] : GoStr) :: rest) pm st = getsmapsLoop pre pm st := by
  induction pre with
  | nil => intro rest pm st; rfl
  | cons l pre ih =>
    intro rest pm st
    rw [List.cons_append]
    by_cases hl : l = []
    · subst hl; rfl
    · rw [getsmapsLoop_cons, getsmapsLoop_cons, if_neg hl, if_neg hl]
      cases hw : (fields l).getLast? with
      | none => rfl
      | some w =>
        dsimp only
        by_cases hkb : w ≠ kBs
        · rw [if_pos hkb, if_pos hkb]
          exact ih _ _ _
        · rw [if_neg hkb, if_neg hkb]
          cases hf : fields l with
          | nil => rfl
          | cons f0 t =>
            cases t with
            | nil => rfl
            | cons f1 fs =>
              dsimp only
              cases hlk : lookupKey pm st with
              | none => rfl
              | some inner =>
                dsimp only
                exact ih _ _ _

/-- C6: For every mapping-accounting input containing an empty line, the
parser stops scanning at the first empty line: the result equals the
result on the lines before it alone, so blocks after the empty line are
silently absent. -/
theorem getsmaps_stops_at_first_empty_line (pre rest : List GoStr)
    (hpre : ∀ l ∈ pre, '\n' ∉ l) (hrest : ∀ l ∈ rest, '\n' ∉ l) :
    getsmaps (joinNL (pre ++ ([] : GoStr) :: rest)) = getsmaps (joinNL pre) := by
  have hsplit : splitNL (joinNL (pre ++ ([] : GoStr) :: rest))
      = pre ++ ([] : GoStr) :: rest := by
    refine splitNL_joinNL _ (by simp) ?_
    intro l hl
    rcases List.mem_append.mp hl with hl | hl
    · exact hpre l hl
    · rcases List.mem_cons.mp hl with rfl | hl
      · simp
      · exact hrest l hl
  rw [getsmaps, hsplit, getsmapsLoop_stops_at_empty]
  cases pre with
  | nil => rfl
  | cons p ps =>
    rw [getsmaps, splitNL_joinNL _ (by simp) hpre]

/-- C6 witness: the theorem applied to a concrete input with one block
before and one block after the empty line. -/
theorem getsmaps_stops_at_first_empty_line_witness :
    getsmaps (joinNL ([gs "08048000-08049000 r-xp /bin/cat", gs "Rss: 4 kB"]
        ++ ([] : GoStr) :: [gs "08050000-08051000 r-xp /lib", gs "Rss: 3 kB"]))
      = getsmaps (joinNL [gs "08048000-08049000 r-xp /bin/cat", gs "Rss: 4 kB"]) :=
  getsmaps_stops_at_first_empty_line _ _ (by decide) (by decide)

/-- C7: For a counter line whose value field is malformed (not parsable by
`strconv.Atoi`), the parser stores `0` for that counter and proceeds
normally with the rest of the scan — the failure is not surfaced — and no
other counter of the same block is affected. -/
theorem malformed_counter_stored_as_zero
    (l : GoStr) (rest : List GoStr) (pm : Pmaps) (st : GoStr) (inner : Counters)
    (f0 f1 : GoStr) (fs : List GoStr)
    (hf : fields l = f0 :: f1 :: fs)
    (hw : (fields l).getLast? = some kBs)
    (hlk : lookupKey pm st = some inner)
    (hbad : atoiCore f1 = none) :
    getsmapsLoop (l :: rest) pm st
      = getsmapsLoop rest (setKey pm st (setKey inner (toLowerStr (trimColon f0)) 0)) st
    ∧ getD (setKey inner (toLowerStr (trimColon f0)) 0) (toLowerStr (trimColon f0)) 0 = 0
    ∧ ∀ m, m ≠ toLowerStr (trimColon f0) →
        getD (setKey inner (toLowerStr (trimColon f0)) 0) m 0 = getD inner m 0 := by
  refine ⟨?_, ?_, ?_⟩
  · have h0 : atoi f1 = 0 := by simp only [atoi, hbad]
    rw [getsmapsLoop_counter l rest pm st f0 f1 fs inner hf hw hlk, h0]
  · exact getD_setKey_self inner _ 0 0
  · intro m hm
    exact getD_setKey_ne inner _ m 0 0 hm

/-- C7 witness: the theorem applied to the concrete malformed counter line
`Rss: junk kB` inside a block with start address `08048000`. -/
theorem malformed_counter_stored_as_zero_witness :
    getsmapsLoop [gs "Rss: junk kB"] [(gs "08048000", [])] (gs "08048000")
      = getsmapsLoop []
          (setKey [(gs "08048000", [])] (gs "08048000")
            (setKey [] (toLowerStr (trimColon (gs "Rss:"))) 0)) (gs "08048000")
    ∧ getD (setKey ([] : Counters) (toLowerStr (trimColon (gs "Rss:"))) 0)
        (toLowerStr (trimColon (gs "Rss:"))) 0 = 0 := by
  have h := malformed_counter_stored_as_zero (gs "Rss: junk kB") [] [(gs "08048000", [])]
    (gs "08048000") [] (gs "Rss:") (gs "junk") [gs "kB"]
    (by decide) (by decide) (by decide) (by decide)
  exact ⟨h.1, h.2.1⟩

/-- C8: The CSV export produces first the exact header row
`pid,name,rss,uss,pss`, then exactly one row per process in the table,
each row's columns in the fixed order pid, name, rss, uss, pss — the USS
column preceding the PSS column. -/
theorem printCSV_header_and_rows (tbl : Table) (i : Nat) :
    (printCSVout tbl).1 = gs "pid,name,rss,uss,pss"
    ∧ (printCSVout tbl).2.length = tbl.length
    ∧ (printCSVout tbl).2[i]?
        = (tbl[i]?).map
            (fun pe => [pe.1, pe.2.name, itoa pe.2.rss, itoa pe.2.uss, itoa pe.2.pss]) := by
  refine ⟨rfl, ?_, ?_⟩
  · simp [printCSVout, makeCSV]
  · simp [printCSVout, makeCSV, List.getElem?_map]

theorem getsmapsLoop_counter_first_none (l : GoStr) (rest : List GoStr) (st : GoStr)
    (hw : (fields l).getLast? = some kBs) : getsmapsLoop (l :: rest) [] st = none := by
  have hne : l ≠ [] := ne_nil_of_fields_ne_nil l (by
    intro hf
    rw [hf] at hw
    simp at hw)
  rw [getsmapsLoop_cons, if_neg hne, hw]
  simp only [ne_eq, not_true_eq_false, if_false, ite_false]
  cases hf : fields l with
  | nil => rfl
  | cons f0 t =>
    cases t with
    | nil => rfl
    | cons f1 fs => rfl

theorem preLines_cons (l : GoStr) (ls : List GoStr) (h : l ≠ []) :
    preLines (l :: ls) = l :: preLines ls := by
  simp [preLines, List.takeWhile_cons, h]

theorem fields_ne_nil_of_loop_some (ls : List GoStr) :
    ∀ (pm : Pmaps) (st : GoStr) (r : Pmaps), getsmapsLoop ls pm st = some r →
    ∀ l ∈ preLines ls, fields l ≠ [] := by
  induction ls with
  | nil => intro pm st r _ l hl; simp [preLines] at hl
  | cons l0 ls ih =>
    intro pm st r hr l hl
    by_cases h0 : l0 = []
    · subst h0; simp [preLines] at hl
    · rw [preLines_cons l0 ls h0] at hl
      rw [getsmapsLoop_cons, if_neg h0] at hr
      cases hw : (fields l0).getLast? with
      | none => rw [hw] at hr; simp at hr
      | some w =>
        have hf0 : fields l0 ≠ [] := by
          intro hf
          rw [hf] at hw
          simp at hw
        rcases List.mem_cons.mp hl with rfl | hl2
        · exact hf0
        · simp only [hw] at hr
          by_cases hkb : w ≠ kBs
          · rw [if_pos hkb] at hr
            exact ih _ _ _ hr l hl2
          · rw [if_neg hkb] at hr
            cases hf : fields l0 with
            | nil => exact absurd hf hf0
            | cons f0 t =>
              cases t with
              | nil => simp only [hf] at hr; simp at hr
              | cons f1 fs =>
                simp only [hf] at hr
                cases hlk : lookupKey pm st with
                | none => simp only [hlk] at hr; simp at hr
                | some inner =>
                  simp only [hlk] at hr
                  exact ih _ _ _ hr l hl2

/-- C10: The mapping parser is not total.  A non-empty whitespace-only
line gives an empty field slice and the last-field access is out of
range; a counter line (last field `kB`) as the first scanned line assigns
into the never-created inner map of the empty start address; and whenever
`getsmaps` does return, every scanned line (before the first empty line)
has a non-empty field slice and the first scanned line is not a counter
line. -/
theorem getsmaps_not_total :
    (∀ (l : GoStr) (rest : List GoStr) (pm : Pmaps) (st : GoStr),
      l ≠ [] → (∀ c ∈ l, isSpace c = true) → getsmapsLoop (l :: rest) pm st = none)
    ∧ (∀ (s l : GoStr) (rest : List GoStr),
      splitNL s = l :: rest → (fields l).getLast? = some kBs → getsmaps s = none)
    ∧ ∀ (s : GoStr) (r : Pmaps), getsmaps s = some r →
        (∀ l ∈ preLines (splitNL s), fields l ≠ [])
        ∧ ∀ (l : GoStr) (rest : List GoStr), preLines (splitNL s) = l :: rest →
            (fields l).getLast? ≠ some kBs := by
  refine ⟨?_, ?_, ?_⟩
  · intro l rest pm st hne hsp
    rw [getsmapsLoop_cons, if_neg hne, fields_all_space l hsp]
    rfl
  · intro s l rest hs hw
    rw [getsmaps, hs]
    exact getsmapsLoop_counter_first_none l rest [] hw
  · intro s r hr
    rw [getsmaps] at hr
    constructor
    · exact fields_ne_nil_of_loop_some (splitNL s) [] [] r hr
    · intro l rest hpre hw
      cases hs : splitNL s with
      | nil => exact absurd hs (splitNL_ne_nil s)
      | cons l0 ls =>
        rw [hs] at hpre hr
        by_cases h0 : l0 = []
        · subst h0
          simp [preLines] at hpre
        · rw [preLines_cons l0 ls h0] at hpre
          obtain ⟨h01, -⟩ := List.cons.inj hpre
          subst h01
          rw [getsmapsLoop_counter_first_none l0 ls [] hw] at hr
          simp at hr

/-- C10 witness: the theorem's parts applied to the whitespace-only line,
to the counter-line-first input `Rss: 4 kB`, and to the returning empty
input. -/
theorem getsmaps_not_total_witness :
    getsmapsLoop [gs " "] [] [] = none
    ∧ getsmaps (gs "Rss: 4 kB") = none
    ∧ ∀ l ∈ preLines (splitNL (gs "")), fields l ≠ [] := by
  refine ⟨?_, ?_, ?_⟩
  · exact getsmaps_not_total.1 (gs " ") [] [] [] (by decide) (by decide)
  · exact getsmaps_not_total.2.1 (gs "Rss: 4 kB") (gs "Rss: 4 kB") [] (by decide) (by decide)
  · exact (getsmaps_not_total.2.2 (gs "") [] (by decide)).1

end Memchart
